import Mathlib

/-!
Verification of the `hash32` function of `src/hash.h` (american fuzzy lop
hashing function).  The file embeds both compile-time paths of the function:
the 64-bit ("Keccak-like") path guarded by `__x86_64__` and the 32-bit
MurmurHash3-like path, as pure functions over a byte buffer modelled as a
function `Nat → Nat` (byte value at an offset, reduced mod 256 at each read).
Words are assembled little-endian, matching the x86 `u64`/`u32` loads of the
source.  All machine arithmetic is `Nat` with explicit `% 2 ^ 64` / `% 2 ^ 32`
reductions where the C code wraps.
-/

namespace AflHash

/-- The five 64-bit round constants `KECCAK_ROUNDS` of src/hash.h. -/
def KECCAK_ROUNDS : List Nat :=
  [0x428a2f98d728ae22, 0x7137449123ef65cd, 0xb5c0fbcfec4d3b2f,
   0xe9b5dba58189dbbc, 0x3956c25bf348b538]

/-- Table lookup `KECCAK_ROUNDS[i]` (all indices used by the code are < 5). -/
def KR (i : Nat) : Nat := KECCAK_ROUNDS.getD i 0

/-- `ROL64(x, n)`: rotate a 64-bit value left by `n` (0 < n < 64). -/
def rol64 (x n : Nat) : Nat :=
  (((x % 2 ^ 64) <<< n) % 2 ^ 64) ||| ((x % 2 ^ 64) >>> (64 - n))

/-- One mixing step of the 64-bit path:
`k1 ^= KR a; k1 = ROL64(k1,21); k1 ^= KR b; h1 ^= k1; h1 = ROL64(h1,17);
h1 *= 0x52dce729`. -/
def mixStep64 (h k a b : Nat) : Nat :=
  (0x52dce729 * rol64 (h ^^^ (rol64 (k ^^^ KR a) 21 ^^^ KR b)) 17) % 2 ^ 64

/-- Body of one iteration of the unrolled `while (len >= 4)` loop: four mixing
steps on words `i, i+1, i+2, i+3` with constant-index pairs
(0,1), (2,3), (4,0), (1,2). -/
def unrolled4 (words : Nat → Nat) (i h : Nat) : Nat :=
  mixStep64 (mixStep64 (mixStep64 (mixStep64 h (words i) 0 1)
    (words (i + 1)) 2 3) (words (i + 2)) 4 0) (words (i + 3)) 1 2

/-- The `while (len--)` remainder loop: with `n` words left, the next word is
mixed with constant indices `(n-1) % 5` and `n % 5` (the post-decremented
`len`). -/
def remLoop64 (words : Nat → Nat) : Nat → Nat → Nat → Nat
  | _, 0, h => h
  | i, m + 1, h =>
    remLoop64 words (i + 1) m (mixStep64 h (words i) (m % 5) ((m + 1) % 5))

/-- The `while (len >= 4)` unrolled loop followed by the remainder loop. -/
def fastLoop64 (words : Nat → Nat) : Nat → Nat → Nat → Nat
  | i, n + 4, h => fastLoop64 words (i + 4) n (unrolled4 words i h)
  | i, n, h => remLoop64 words i n h

/-- Little-endian `u64` load `data[i]` from the byte buffer. -/
def getWord64 (buf : Nat → Nat) (i : Nat) : Nat :=
  buf (8 * i) % 256
  + 2 ^ 8 * (buf (8 * i + 1) % 256)
  + 2 ^ 16 * (buf (8 * i + 2) % 256)
  + 2 ^ 24 * (buf (8 * i + 3) % 256)
  + 2 ^ 32 * (buf (8 * i + 4) % 256)
  + 2 ^ 40 * (buf (8 * i + 5) % 256)
  + 2 ^ 48 * (buf (8 * i + 6) % 256)
  + 2 ^ 56 * (buf (8 * i + 7) % 256)

/-- Final diffusion rounds of the 64-bit path:
`h1 ^= h1 >> 29; h1 *= 0xff51afd7ed558ccd; h1 ^= h1 >> 33;
h1 *= 0xc4ceb9fe1a85ec53; h1 ^= h1 >> 33`. -/
def finalize64 (h : Nat) : Nat :=
  let h1 := h ^^^ (h >>> 29)
  let h2 := (0xff51afd7ed558ccd * h1) % 2 ^ 64
  let h3 := h2 ^^^ (h2 >>> 33)
  let h4 := (0xc4ceb9fe1a85ec53 * h3) % 2 ^ 64
  h4 ^^^ (h4 >>> 33)

/-- `hash32`, 64-bit (`__x86_64__`) path of src/hash.h.  `len` and `seed` are
`u32` parameters, hence the `% 2 ^ 32` reductions at entry; the return value is
`(u32)(h1 ^ (h1 >> 32))`. -/
def hash32_64 (buf : Nat → Nat) (len seed : Nat) : Nat :=
  let len32 := len % 2 ^ 32
  let seed32 := seed % 2 ^ 32
  let hf := fastLoop64 (getWord64 buf) 0 (len32 >>> 3) (seed32 ^^^ len32)
  let hm := finalize64 hf
  (hm ^^^ (hm >>> 32)) % 2 ^ 32

/-- `ROL32(x, r)`: rotate a 32-bit value left by `r` (0 < r < 32). -/
def rol32 (x n : Nat) : Nat :=
  (((x % 2 ^ 32) <<< n) % 2 ^ 32) ||| ((x % 2 ^ 32) >>> (32 - n))

/-- One iteration body of the 32-bit path loop:
`k1 *= 0xcc9e2d51; k1 = ROL32(k1,15); k1 *= 0x1b873593; h1 ^= k1;
h1 = ROL32(h1,13); h1 = h1*5 + 0xe6546b64`. -/
def mixStep32 (h k : Nat) : Nat :=
  (0xe6546b64 + 5 * rol32
    (h ^^^ ((0x1b873593 * rol32 ((0xcc9e2d51 * k) % 2 ^ 32) 15) % 2 ^ 32)) 13) % 2 ^ 32

/-- The `while (len--)` loop of the 32-bit path. -/
def loop32 (words : Nat → Nat) : Nat → Nat → Nat → Nat
  | _, 0, h => h
  | i, m + 1, h => loop32 words (i + 1) m (mixStep32 h (words i))

/-- Little-endian `u32` load `data[i]` from the byte buffer. -/
def getWord32 (buf : Nat → Nat) (i : Nat) : Nat :=
  buf (4 * i) % 256
  + 2 ^ 8 * (buf (4 * i + 1) % 256)
  + 2 ^ 16 * (buf (4 * i + 2) % 256)
  + 2 ^ 24 * (buf (4 * i + 3) % 256)

/-- Final avalanche mixing of the 32-bit path:
`h1 ^= h1 >> 16; h1 *= 0x85ebca6b; h1 ^= h1 >> 13; h1 *= 0xc2b2ae35;
h1 ^= h1 >> 16`. -/
def finalize32 (h : Nat) : Nat :=
  let h1 := h ^^^ (h >>> 16)
  let h2 := (0x85ebca6b * h1) % 2 ^ 32
  let h3 := h2 ^^^ (h2 >>> 13)
  let h4 := (0xc2b2ae35 * h3) % 2 ^ 32
  h4 ^^^ (h4 >>> 16)

/-- `hash32`, 32-bit (non-`__x86_64__`) path of src/hash.h. -/
def hash32_32 (buf : Nat → Nat) (len seed : Nat) : Nat :=
  let len32 := len % 2 ^ 32
  let seed32 := seed % 2 ^ 32
  finalize32 (loop32 (getWord32 buf) 0 (len32 >>> 2) (seed32 ^^^ len32))

/-- Round-constant index pair assigned to word position `i` by the 64-bit path
when `n` words are processed in total: positions inside the unrolled region
(`i < 4 * (n / 4)`) get the fixed pairs (0,1), (2,3), (4,0), (1,2) by position
mod 4; the trailing `n % 4` positions get the remainder loop's pairs
`((r - 1 - j) % 5, (r - j) % 5)` where `r = n % 4` and `j` is the offset into
the remainder. -/
def sched64 (n i : Nat) : Nat × Nat :=
  if i < 4 * (n / 4) then
    match i % 4 with
    | 0 => (0, 1)
    | 1 => (2, 3)
    | 2 => (4, 0)
    | _ => (1, 2)
  else ((n % 4 - 1 - (i - 4 * (n / 4))) % 5, (n % 4 - (i - 4 * (n / 4))) % 5)

/-- Apply the per-word mixing step once for each constant-index pair in `cs`,
consuming words at increasing indices starting from `i`. -/
def mixRounds (words : Nat → Nat) : List (Nat × Nat) → Nat → Nat → Nat
  | [], _, h => h
  | (a, b) :: rest, i, h => mixRounds words rest (i + 1) (mixStep64 h (words i) a b)

/-- The wide-path algorithm as the spec describes it: accumulator seeded with
`seed XOR length`, a single uniform pass over the `length / 8` words applying
the per-word step with round constants drawn from the fixed table, the
finalization mix, and the XOR of the high and low 32-bit halves. -/
def hash32_64_spec (buf : Nat → Nat) (len seed : Nat) : Nat :=
  let len32 := len % 2 ^ 32
  let seed32 := seed % 2 ^ 32
  let n := len32 >>> 3
  let hf := mixRounds (getWord64 buf) ((List.range n).map (sched64 n)) 0
    (seed32 ^^^ len32)
  let hm := finalize64 hf
  (hm ^^^ (hm >>> 32)) % 2 ^ 32

/-- The narrow-path algorithm as the spec describes it: accumulator seeded with
`seed XOR length`, a left fold of the per-word step over the `length / 4`
words in order, the avalanche finalization, and the accumulator returned
directly. -/
def hash32_32_spec (buf : Nat → Nat) (len seed : Nat) : Nat :=
  let len32 := len % 2 ^ 32
  finalize32 ((List.range (len32 >>> 2)).foldl
    (fun h j => mixStep32 h (getWord32 buf j)) ((seed % 2 ^ 32) ^^^ len32))

/-- Fuel-indexed version of the two 64-bit-path loops, mirroring their
control flow: each loop iteration consumes one unit of fuel, and exhausted
fuel with a pending iteration yields `none`. -/
def fastLoop64Fuel (words : Nat → Nat) : Nat → Nat → Nat → Nat → Option Nat
  | 0, _, n, h => if n = 0 then some h else none
  | fuel + 1, i, n, h =>
    if 4 ≤ n then fastLoop64Fuel words fuel (i + 4) (n - 4) (unrolled4 words i h)
    else match n with
      | 0 => some h
      | m + 1 =>
        fastLoop64Fuel words fuel (i + 1) m
          (mixStep64 h (words i) (m % 5) ((m + 1) % 5))

/-- Fuel-indexed version of the 32-bit-path loop. -/
def loop32Fuel (words : Nat → Nat) : Nat → Nat → Nat → Nat → Option Nat
  | 0, _, n, h => if n = 0 then some h else none
  | fuel + 1, i, n, h =>
    match n with
    | 0 => some h
    | m + 1 => loop32Fuel words fuel (i + 1) m (mixStep32 h (words i))

/-- The 64-bit path run with fuel equal to its chunk count. -/
def hash32_64Fuel (buf : Nat → Nat) (len seed : Nat) : Option Nat :=
  let len32 := len % 2 ^ 32
  let n := len32 >>> 3
  match fastLoop64Fuel (getWord64 buf) n 0 n ((seed % 2 ^ 32) ^^^ len32) with
  | none => none
  | some hf =>
    let hm := finalize64 hf
    some ((hm ^^^ (hm >>> 32)) % 2 ^ 32)

/-- The 32-bit path run with fuel equal to its chunk count. -/
def hash32_32Fuel (buf : Nat → Nat) (len seed : Nat) : Option Nat :=
  let len32 := len % 2 ^ 32
  let n := len32 >>> 2
  match loop32Fuel (getWord32 buf) n 0 n ((seed % 2 ^ 32) ^^^ len32) with
  | none => none
  | some hf => some (finalize32 hf)

/-- Concrete buffers used as test inputs. -/
def zeroBuf : Nat → Nat := fun _ => 0

def bufOne : Nat → Nat := fun j => if j = 0 then 1 else 0

def bufTwo : Nat → Nat := fun j => if j = 0 then 2 else 0

def idBuf : Nat → Nat := fun j => j % 256

def tailBuf : Nat → Nat := fun j => if j < 8 then j % 256 else 99

/-! ### Helper lemmas -/

theorem sched64_lo0 (m : Nat) : sched64 (4 + m) 0 = (0, 1) := by
  have h : 0 < 4 * ((4 + m) / 4) := by omega
  unfold sched64
  rw [if_pos h]

theorem sched64_lo1 (m : Nat) : sched64 (4 + m) 1 = (2, 3) := by
  have h : 1 < 4 * ((4 + m) / 4) := by omega
  unfold sched64
  rw [if_pos h]

theorem sched64_lo2 (m : Nat) : sched64 (4 + m) 2 = (4, 0) := by
  have h : 2 < 4 * ((4 + m) / 4) := by omega
  unfold sched64
  rw [if_pos h]

theorem sched64_lo3 (m : Nat) : sched64 (4 + m) 3 = (1, 2) := by
  have h : 3 < 4 * ((4 + m) / 4) := by omega
  unfold sched64
  rw [if_pos h]

theorem sched64_hi (m j : Nat) : sched64 (4 + m) (4 + j) = sched64 m j := by
  unfold sched64
  have hd : (4 + m) / 4 = m / 4 + 1 := by omega
  have hm4 : (4 + m) % 4 = m % 4 := by omega
  have hj4 : (4 + j) % 4 = j % 4 := by omega
  rw [hd, hm4, hj4]
  by_cases hj : j < 4 * (m / 4)
  · rw [if_pos (by omega), if_pos hj]
  · rw [if_neg (by omega), if_neg hj]
    have he : 4 + j - 4 * (m / 4 + 1) = j - 4 * (m / 4) := by omega
    rw [he]

theorem schedList_step (m : Nat) :
    (List.range (4 + m)).map (sched64 (4 + m))
      = [(0, 1), (2, 3), (4, 0), (1, 2)] ++ (List.range m).map (sched64 m) := by
  rw [List.range_add, List.map_append, List.map_map]
  congr 1
  · rw [show List.range 4 = [0, 1, 2, 3] from rfl]
    simp [sched64_lo0, sched64_lo1, sched64_lo2, sched64_lo3]
  · refine List.map_congr_left ?_
    intro j _
    show sched64 (4 + m) (4 + j) = sched64 m j
    exact sched64_hi m j

theorem mixRounds_append (words : Nat → Nat) (l1 l2 : List (Nat × Nat)) :
    ∀ i h, mixRounds words (l1 ++ l2) i h
      = mixRounds words l2 (i + l1.length) (mixRounds words l1 i h) := by
  induction l1 with
  | nil => intro i h; simp [mixRounds]
  | cons p rest ih =>
    intro i h
    obtain ⟨a, b⟩ := p
    show mixRounds words (rest ++ l2) (i + 1) (mixStep64 h (words i) a b) = _
    rw [ih]
    have he : i + 1 + rest.length = i + ((a, b) :: rest).length := by
      rw [List.length_cons]; omega
    rw [he]
    rfl

theorem fastLoop64_small (words : Nat → Nat) (i n h : Nat) (hn : n < 4) :
    fastLoop64 words i n h = remLoop64 words i n h := by
  interval_cases n <;> rfl

theorem fastLoop64_eq_mixRounds (words : Nat → Nat) :
    ∀ n i h, fastLoop64 words i n h
      = mixRounds words ((List.range n).map (sched64 n)) i h := by
  intro n
  induction n using Nat.strong_induction_on with
  | _ n ih =>
    intro i h
    rcases Nat.lt_or_ge n 4 with hn | hn
    · interval_cases n
      · rfl
      · rfl
      · rfl
      · rfl
    · obtain ⟨m, rfl⟩ : ∃ m, n = 4 + m := ⟨n - 4, by omega⟩
      have e1 : fastLoop64 words i (4 + m) h
          = fastLoop64 words (i + 4) m (unrolled4 words i h) := by
        have hc : 4 + m = m + 4 := by omega
        rw [hc]
        rfl
      rw [e1, ih m (by omega), schedList_step, mixRounds_append]
      rfl

theorem loop32_eq_foldl (words : Nat → Nat) :
    ∀ n i h, loop32 words i n h
      = (List.range n).foldl (fun acc j => mixStep32 acc (words (i + j))) h := by
  intro n
  induction n with
  | zero => intro i h; rfl
  | succ m ih =>
    intro i h
    show loop32 words (i + 1) m (mixStep32 h (words i)) = _
    rw [ih (i + 1) (mixStep32 h (words i)), List.range_succ_eq_map,
      List.foldl_cons, List.foldl_map]
    have hfun : (fun acc j => mixStep32 acc (words (i + 1 + j)))
        = fun acc j => mixStep32 acc (words (i + Nat.succ j)) := by
      funext acc j
      have he : i + 1 + j = i + Nat.succ j := by omega
      rw [he]
    rw [hfun]
    simp only [Nat.add_zero]

theorem mixRounds_congr (words words2 : Nat → Nat) :
    ∀ cs : List (Nat × Nat), ∀ i h,
      (∀ j, i ≤ j → j < i + cs.length → words j = words2 j) →
      mixRounds words cs i h = mixRounds words2 cs i h := by
  intro cs
  induction cs with
  | nil => intro i h _; rfl
  | cons p rest ih =>
    intro i h hag
    obtain ⟨a, b⟩ := p
    show mixRounds words rest (i + 1) (mixStep64 h (words i) a b)
      = mixRounds words2 rest (i + 1) (mixStep64 h (words2 i) a b)
    rw [hag i (Nat.le_refl i) (by rw [List.length_cons]; omega)]
    exact ih (i + 1) _ fun j h1 h2 => hag j (by omega)
      (by rw [List.length_cons]; omega)

theorem loop32_congr (words words2 : Nat → Nat) :
    ∀ n i h, (∀ j, i ≤ j → j < i + n → words j = words2 j) →
      loop32 words i n h = loop32 words2 i n h := by
  intro n
  induction n with
  | zero => intro i h _; rfl
  | succ m ih =>
    intro i h hag
    show loop32 words (i + 1) m (mixStep32 h (words i))
      = loop32 words2 (i + 1) m (mixStep32 h (words2 i))
    rw [hag i (Nat.le_refl i) (by omega)]
    exact ih (i + 1) _ fun j h1 h2 => hag j (by omega) (by omega)

theorem getWord64_congr (buf buf2 : Nat → Nat) (n : Nat)
    (hag : ∀ j, j < 8 * n → buf j = buf2 j) :
    ∀ i, i < n → getWord64 buf i = getWord64 buf2 i := by
  intro i hi
  unfold getWord64
  rw [hag (8 * i) (by omega), hag (8 * i + 1) (by omega),
    hag (8 * i + 2) (by omega), hag (8 * i + 3) (by omega),
    hag (8 * i + 4) (by omega), hag (8 * i + 5) (by omega),
    hag (8 * i + 6) (by omega), hag (8 * i + 7) (by omega)]

theorem getWord32_congr (buf buf2 : Nat → Nat) (n : Nat)
    (hag : ∀ j, j < 4 * n → buf j = buf2 j) :
    ∀ i, i < n → getWord32 buf i = getWord32 buf2 i := by
  intro i hi
  unfold getWord32
  rw [hag (4 * i) (by omega), hag (4 * i + 1) (by omega),
    hag (4 * i + 2) (by omega), hag (4 * i + 3) (by omega)]

theorem fastLoop64Fuel_eq (words : Nat → Nat) :
    ∀ fuel n, n ≤ fuel → ∀ i h,
      fastLoop64Fuel words fuel i n h = some (fastLoop64 words i n h) := by
  intro fuel
  induction fuel with
  | zero =>
    intro n hn i h
    have hz : n = 0 := Nat.le_zero.mp hn
    subst hz
    rfl
  | succ f ih =>
    intro n hn i h
    by_cases h4 : 4 ≤ n
    · obtain ⟨m, rfl⟩ : ∃ m, n = m + 4 := ⟨n - 4, by omega⟩
      show fastLoop64Fuel words (f + 1) i (m + 4) h = _
      simp only [fastLoop64Fuel]
      rw [if_pos h4]
      have hsub : m + 4 - 4 = m := by omega
      rw [hsub, ih m (by omega)]
      rfl
    · match n, hn, h4 with
      | 0, _, _ =>
        simp only [fastLoop64Fuel]
        rw [if_neg (by omega : ¬ (4 : Nat) ≤ 0)]
        rfl
      | m + 1, hn, h4x =>
        simp only [fastLoop64Fuel]
        rw [if_neg h4x, ih m (by omega)]
        rw [fastLoop64_small words i (m + 1) h (by omega),
          fastLoop64_small words (i + 1) m _ (by omega)]
        rfl

theorem loop32Fuel_eq (words : Nat → Nat) :
    ∀ fuel n, n ≤ fuel → ∀ i h,
      loop32Fuel words fuel i n h = some (loop32 words i n h) := by
  intro fuel
  induction fuel with
  | zero =>
    intro n hn i h
    have hz : n = 0 := Nat.le_zero.mp hn
    subst hz
    rfl
  | succ f ih =>
    intro n hn i h
    match n with
    | 0 => rfl
    | m + 1 => exact ih m (by omega) (i + 1) (mixStep32 h (words i))

/-! ### Claim theorems -/

/-- C1: for every buffer whose length is a multiple of 8 bytes and every seed,
the wide-path hash32 follows the specified algorithm: the accumulator starts at
`seed XOR length`; each of the `length / 8` words is XORed with a round
constant from the fixed table, rotated left by 21, XORed with a second round
constant, folded into the accumulator via XOR, after which the accumulator is
rotated left by 17 and multiplied by 0x52dce729; and the returned 32-bit value
is the XOR of the high and low halves of the finalized accumulator. -/
theorem wide_path_follows_spec (buf : Nat → Nat) (len seed : Nat)
    (_hdvd : 8 ∣ len) : hash32_64 buf len seed = hash32_64_spec buf len seed := by
  simp only [hash32_64, hash32_64_spec]
  rw [fastLoop64_eq_mixRounds]

/-- Witness for C1 at a concrete multiple-of-8 length. -/
theorem wide_path_follows_spec_witness :
    hash32_64 idBuf 8 0 = hash32_64_spec idBuf 8 0 :=
  wide_path_follows_spec idBuf 8 0 ⟨1, rfl⟩

/-- C2: for every buffer whose length is a multiple of 4 bytes and every seed,
the narrow-path hash32 processes `length / 4` words, each multiplied by a fixed
odd constant, rotated left by 15, multiplied by a second constant, XORed into
the accumulator, which is then rotated by 13 and updated as `h = h*5 + const`;
it then applies the avalanche sequence and returns the 32-bit accumulator
directly. -/
theorem narrow_path_follows_spec (buf : Nat → Nat) (len seed : Nat)
    (_hdvd : 4 ∣ len) : hash32_32 buf len seed = hash32_32_spec buf len seed := by
  simp only [hash32_32, hash32_32_spec]
  rw [loop32_eq_foldl]
  simp only [Nat.zero_add]

/-- Witness for C2 at a concrete multiple-of-4 length. -/
theorem narrow_path_follows_spec_witness :
    hash32_32 idBuf 8 0 = hash32_32_spec idBuf 8 0 :=
  narrow_path_follows_spec idBuf 8 0 ⟨2, rfl⟩

/-- C3: for `length = 0`, hash32 executes no mixing iteration and reads no byte
of the buffer: on both paths the result for any two buffers is identical, a
function of the seed alone. -/
theorem len_zero_depends_only_on_seed (buf buf2 : Nat → Nat) (seed : Nat) :
    hash32_64 buf 0 seed = hash32_64 buf2 0 seed
  ∧ hash32_32 buf 0 seed = hash32_32 buf2 0 seed := ⟨rfl, rfl⟩

/-- C4: for a length that is not a multiple of the chunk size, hash32 reads
only the bytes of the full chunks: two buffers agreeing on offsets below
`chunk * (length / chunk)` hash identically on the corresponding path, however
the tail bytes differ. -/
theorem tail_bytes_ignored (buf buf2 : Nat → Nat) (len seed : Nat)
    (hlen : len < 2 ^ 32) :
    (¬ 8 ∣ len → (∀ j, j < 8 * (len / 8) → buf j = buf2 j) →
        hash32_64 buf len seed = hash32_64 buf2 len seed)
  ∧ (¬ 4 ∣ len → (∀ j, j < 4 * (len / 4) → buf j = buf2 j) →
        hash32_32 buf len seed = hash32_32 buf2 len seed) := by
  constructor
  · intro _ hag
    have hsh : len >>> 3 = len / 8 := by rw [Nat.shiftRight_eq_div_pow]
    simp only [hash32_64]
    rw [Nat.mod_eq_of_lt hlen]
    suffices hs : fastLoop64 (getWord64 buf) 0 (len >>> 3) ((seed % 2 ^ 32) ^^^ len)
        = fastLoop64 (getWord64 buf2) 0 (len >>> 3) ((seed % 2 ^ 32) ^^^ len) by
      rw [hs]
    rw [fastLoop64_eq_mixRounds, fastLoop64_eq_mixRounds]
    apply mixRounds_congr
    intro j hj1 hj2
    rw [List.length_map, List.length_range] at hj2
    exact getWord64_congr buf buf2 (len >>> 3)
      (fun j2 hj2b => hag j2 (by rw [hsh] at hj2b; omega)) j (by omega)
  · intro _ hag
    have hsh : len >>> 2 = len / 4 := by rw [Nat.shiftRight_eq_div_pow]
    simp only [hash32_32]
    rw [Nat.mod_eq_of_lt hlen]
    suffices hs : loop32 (getWord32 buf) 0 (len >>> 2) ((seed % 2 ^ 32) ^^^ len)
        = loop32 (getWord32 buf2) 0 (len >>> 2) ((seed % 2 ^ 32) ^^^ len) by
      rw [hs]
    apply loop32_congr
    intro j hj1 hj2
    exact getWord32_congr buf buf2 (len >>> 2)
      (fun j2 hj2b => hag j2 (by rw [hsh] at hj2b; omega)) j (by omega)

/-- Witness for C4: length 9 (a multiple of neither 8 nor 4), two buffers that
agree on the first 8 bytes and differ beyond. -/
theorem tail_bytes_ignored_witness :
    hash32_64 idBuf 9 5 = hash32_64 tailBuf 9 5
  ∧ hash32_32 idBuf 9 5 = hash32_32 tailBuf 9 5 := by
  have h := tail_bytes_ignored idBuf tailBuf 9 5 (by decide)
  exact ⟨h.1 (by decide) (by decide), h.2 (by decide) (by decide)⟩

/-- C5: hash32 is deterministic and pure — both embedded paths are functions,
so any two evaluations at the same buffer, length and seed coincide. -/
theorem hash32_deterministic (buf : Nat → Nat) (len seed : Nat) :
    hash32_64 buf len seed = hash32_64 buf len seed
  ∧ hash32_32 buf len seed = hash32_32 buf len seed := ⟨rfl, rfl⟩

/-- C6: on the 8-byte all-zero buffer with length 8, seeds 0 and 1 produce
different hashes on both paths. -/
theorem seed_sensitivity_zero_buffer :
    hash32_64 zeroBuf 8 0 ≠ hash32_64 zeroBuf 8 1
  ∧ hash32_32 zeroBuf 8 0 ≠ hash32_32 zeroBuf 8 1 := by
  constructor
  · decide
  · decide

/-- C7: with length 8 and seed 0, changing the first byte from 0x01 to 0x02
changes the hash on both paths. -/
theorem content_sensitivity_single_byte :
    hash32_64 bufOne 8 0 ≠ hash32_64 bufTwo 8 0
  ∧ hash32_32 bufOne 8 0 ≠ hash32_32 bufTwo 8 0 := by
  constructor
  · decide
  · decide

/-- C8: hash32 terminates on every input: the fuel-indexed versions of the
loops, given fuel equal to the chunk count (which both loops strictly
decrease), return `some` of the value of the total embedding. -/
theorem hash32_terminates_with_linear_fuel (buf : Nat → Nat) (len seed : Nat) :
    hash32_64Fuel buf len seed = some (hash32_64 buf len seed)
  ∧ hash32_32Fuel buf len seed = some (hash32_32 buf len seed) := by
  constructor
  · simp only [hash32_64Fuel, hash32_64]
    rw [fastLoop64Fuel_eq (getWord64 buf) _ _ (Nat.le_refl _)]
  · simp only [hash32_32Fuel, hash32_32]
    rw [loop32Fuel_eq (getWord32 buf) _ _ (Nat.le_refl _)]

/-- C9: seed and length influence the result only through their XOR and the
chunk count: equal `seed XOR len` and equal `len >> 3` (wide) resp. `len >> 2`
(narrow) give equal hashes for every buffer. -/
theorem seed_len_only_via_xor_and_count (buf : Nat → Nat)
    (len seed len2 seed2 : Nat) (hl : len < 2 ^ 32) (hl2 : len2 < 2 ^ 32)
    (hs : seed < 2 ^ 32) (hs2 : seed2 < 2 ^ 32)
    (hx : seed ^^^ len = seed2 ^^^ len2) :
    (len >>> 3 = len2 >>> 3 → hash32_64 buf len seed = hash32_64 buf len2 seed2)
  ∧ (len >>> 2 = len2 >>> 2 → hash32_32 buf len seed = hash32_32 buf len2 seed2) := by
  constructor
  · intro hcount
    simp only [hash32_64]
    rw [Nat.mod_eq_of_lt hl, Nat.mod_eq_of_lt hs, Nat.mod_eq_of_lt hl2,
      Nat.mod_eq_of_lt hs2, hx, hcount]
  · intro hcount
    simp only [hash32_32]
    rw [Nat.mod_eq_of_lt hl, Nat.mod_eq_of_lt hs, Nat.mod_eq_of_lt hl2,
      Nat.mod_eq_of_lt hs2, hx, hcount]

/-- Witness for C9: (len, seed) = (8, 0) and (9, 1) satisfy both conditions. -/
theorem seed_len_only_via_xor_and_count_witness :
    hash32_64 idBuf 8 0 = hash32_64 idBuf 9 1
  ∧ hash32_32 idBuf 8 0 = hash32_32 idBuf 9 1 := by
  have h := seed_len_only_via_xor_and_count idBuf 8 0 9 1 (by decide) (by decide)
    (by decide) (by decide) (by decide)
  exact ⟨h.1 (by decide), h.2 (by decide)⟩

/-- C10 counterexample: one iteration of the unrolled 4-word loop does not
compute the same accumulator as four iterations of the remainder loop on the
same four words: on four zero words from accumulator 0 the two differ. -/
theorem unrolled_vs_remainder_differ :
    unrolled4 zeroBuf 0 0 ≠ remLoop64 zeroBuf 0 4 0 := by decide

/-- C10 amended: both loop bodies apply the same per-word mixing step, but with
different round-constant schedules — the unrolled iteration uses the index
pairs (0,1), (2,3), (4,0), (1,2) while four remainder-loop iterations use
(3,4), (2,3), (1,2), (0,1) — so they are not output-equivalent. -/
theorem unrolled_and_remainder_schedules (words : Nat → Nat) (i h : Nat) :
    unrolled4 words i h = mixRounds words [(0, 1), (2, 3), (4, 0), (1, 2)] i h
  ∧ remLoop64 words i 4 h = mixRounds words [(3, 4), (2, 3), (1, 2), (0, 1)] i h :=
  ⟨rfl, rfl⟩

end AflHash
